import Mathlib

/-!
Verification of the challenge-instancer's deployment orchestrator.

The definitions below are a shallow embedding of the Rust sources:
* `src/src/models.rs`   — data model (`ChallengeInstanceState`, `User`, `ChallengeInstance`,
  `TimeSinceEpoch`): instants are modelled as `Int` (nanoseconds since the epoch, the
  resolution of `SystemTime`), durations as `Int` nanoseconds.
* `src/src/database.rs` — the Store: SQL statements over an abstract database state
  (`DbState`): a list of `users` rows and a list of `challenge_instances` rows.
  `instance_count` is a SQLite `INTEGER` (i64); it is modelled as `Int` (the claims never
  approach the 2^63 wrap).
* `src/src/deployment_worker.rs` — the Deployer output parsing, the worker loop's
  expiry drain, recovery (`prepare`) and the Restart handler.
* `src/src/config.rs`   — the `ttl` deserializer, over ASCII strings modelled as `List Char`.
-/

namespace Instancer

/-- The `ChallengeInstanceState` from src/src/models.rs (lines 30-36). `Stopped` is never
persisted; it stands for the absence of a row. -/
inductive ChallengeInstanceState where
  | Stopped
  | Running
  | QueuedStart
  | QueuedRestart
  | QueuedStop
deriving DecidableEq, Repr

/-- The `ChallengeInstanceState::is_queued` from src/src/models.rs (lines 39-44). -/
def ChallengeInstanceState.is_queued : ChallengeInstanceState → Bool
  | .QueuedStop => true
  | .QueuedStart => true
  | .QueuedRestart => true
  | _ => false

/-- A `users` table row (src/src/models.rs lines 11-17 plus the `instance_count`
column of the persisted schema). -/
structure User where
  id : String
  username : String
  display_name : String
  avatar : String
  creation_time : Int
  instance_count : Int
deriving DecidableEq, Repr

/-- A `challenge_instances` table row (src/src/models.rs lines 20-26). -/
structure ChallengeInstance where
  user_id : String
  challenge_id : String
  state : ChallengeInstanceState
  details : Option String
  stop_time : Option Int
deriving DecidableEq, Repr

/-- The durable store: the two tables of the persisted schema. -/
structure DbState where
  users : List User
  instances : List ChallengeInstance
deriving DecidableEq, Repr

/-- The `ChallengeInstanceInsertionResult` from src/src/database.rs (lines 9-13). -/
inductive ChallengeInstanceInsertionResult where
  | Inserted
  | Exists
  | LimitReached
deriving DecidableEq, Repr

/-- The row update of `UPDATE users SET instance_count = instance_count + 1
WHERE id = ? AND instance_count < ?` (src/src/database.rs lines 42-45). -/
def bumpUser (uid : String) (maxCount : Nat) (u : User) : User :=
  if u.id = uid ∧ u.instance_count < (maxCount : Int) then
    { u with instance_count := u.instance_count + 1 }
  else u

/-- The `Database::insert_challenge_instance` (src/src/database.rs lines 39-67).
In one transaction: the conditional increment; if it affected no row the
transaction is dropped (rolled back) and `LimitReached` is returned; otherwise the
`INSERT` is attempted — a primary-key conflict on `(user_id, challenge_id)` raises a
unique violation, the transaction is dropped and `Exists` is returned; otherwise the
transaction commits and `Inserted` is returned. -/
def insert_challenge_instance (db : DbState) (inst : ChallengeInstance) (maxCount : Nat) :
    ChallengeInstanceInsertionResult × DbState :=
  let affected := db.users.countP (fun u => decide (u.id = inst.user_id ∧ u.instance_count < (maxCount : Int)))
  if affected = 0 then
    (.LimitReached, db)
  else if db.instances.any (fun r => decide (r.user_id = inst.user_id ∧ r.challenge_id = inst.challenge_id)) then
    (.Exists, db)
  else
    (.Inserted, { users := db.users.map (bumpUser inst.user_id maxCount),
                  instances := db.instances ++ [inst] })

/-- The `Database::transition_challenge_instance_state` (src/src/database.rs lines 69-77):
`UPDATE challenge_instances SET state = ? WHERE user_id = ? AND challenge_id = ?
AND state = ?`; returns `rows_affected == 1`. -/
def transition_challenge_instance_state (db : DbState) (user_id challenge_id : String)
    (old_state new_state : ChallengeInstanceState) : Bool × DbState :=
  let hit := fun (r : ChallengeInstance) =>
    r.user_id = user_id ∧ r.challenge_id = challenge_id ∧ r.state = old_state
  let affected := db.instances.countP (fun r => decide (hit r))
  (decide (affected = 1),
   { db with instances := db.instances.map (fun r => if hit r then { r with state := new_state } else r) })

/-- The `Database::populate_running_challenge_instance` (src/src/database.rs lines 79-87):
unconditionally sets `state = Running`, `details`, `stop_time` on the keyed row. -/
def populate_running_challenge_instance (db : DbState) (user_id challenge_id : String)
    (details : String) (stop_time : Int) : DbState :=
  { db with instances := db.instances.map (fun r =>
      if r.user_id = user_id ∧ r.challenge_id = challenge_id then
        { r with state := .Running, details := some details, stop_time := some stop_time }
      else r) }

/-- The `Database::extend_challenge_instance` (src/src/database.rs lines 89-97):
sets `stop_time` where `state = Running` and the key matches; returns `rows_affected == 1`. -/
def extend_challenge_instance (db : DbState) (user_id challenge_id : String)
    (stop_time : Int) : Bool × DbState :=
  let hit := fun (r : ChallengeInstance) =>
    r.state = .Running ∧ r.user_id = user_id ∧ r.challenge_id = challenge_id
  let affected := db.instances.countP (fun r => decide (hit r))
  (decide (affected = 1),
   { db with instances := db.instances.map (fun r => if hit r then { r with stop_time := some stop_time } else r) })

/-- The `Database::delete_challenge_instance` (src/src/database.rs lines 99-112).
One transaction: `DELETE FROM challenge_instances WHERE user_id = ? AND challenge_id = ?`
followed by `UPDATE users SET instance_count = instance_count - 1 WHERE id = ?`.
Note that the decrement is NOT conditioned on the delete having removed a row. -/
def delete_challenge_instance (db : DbState) (user_id challenge_id : String) : DbState :=
  { users := db.users.map (fun u =>
      if u.id = user_id then { u with instance_count := u.instance_count - 1 } else u),
    instances := db.instances.filter (fun r =>
      decide (¬(r.user_id = user_id ∧ r.challenge_id = challenge_id))) }

/-- One Store write, as enumerated by claim C1. -/
inductive StoreOp where
  | insert (inst : ChallengeInstance) (maxCount : Nat)
  | transition (user_id challenge_id : String) (old_state new_state : ChallengeInstanceState)
  | populate (user_id challenge_id : String) (details : String) (stop_time : Int)
  | extend (user_id challenge_id : String) (stop_time : Int)
  | delete (user_id challenge_id : String)
deriving DecidableEq, Repr

/-- Effect of one Store write on the durable state. -/
def applyOp (db : DbState) : StoreOp → DbState
  | .insert inst m => (insert_challenge_instance db inst m).2
  | .transition u c o n => (transition_challenge_instance_state db u c o n).2
  | .populate u c d t => populate_running_challenge_instance db u c d t
  | .extend u c t => (extend_challenge_instance db u c t).2
  | .delete u c => delete_challenge_instance db u c

/-- Effect of a sequence of Store writes. -/
def applyOps (db : DbState) (ops : List StoreOp) : DbState := ops.foldl applyOp db

/-- Number of persisted `challenge_instances` rows belonging to a user. -/
def instancesFor (db : DbState) (uid : String) : Nat :=
  db.instances.countP (fun r => decide (r.user_id = uid))

/-- The instance-count invariant of the spec: for every user, `instance_count`
equals the number of persisted instance rows for that user. -/
def countInv (db : DbState) : Prop :=
  ∀ u ∈ db.users, u.instance_count = (instancesFor db u.id : Int)

instance (db : DbState) : Decidable (countInv db) := by
  unfold countInv; infer_instance

/-- Composite primary key of a `challenge_instances` row. -/
def instKey (r : ChallengeInstance) : String × String := (r.user_id, r.challenge_id)

/-- Well-formedness enforced by the schema's primary keys: user ids are unique,
and `(user_id, challenge_id)` pairs are unique among instance rows. -/
def dbWF (db : DbState) : Prop :=
  (db.users.map User.id).Nodup ∧ (db.instances.map instKey).Nodup

instance (db : DbState) : Decidable (dbWF db) := by
  unfold dbWF; infer_instance

/-- A per-step side condition on a Store write: a `delete` targets a key for which an
instance row actually exists. All other writes are unconstrained. -/
def opOk (db : DbState) : StoreOp → Prop
  | .delete u c => ∃ r ∈ db.instances, r.user_id = u ∧ r.challenge_id = c
  | _ => True

instance (db : DbState) (op : StoreOp) : Decidable (opOk db op) := by
  cases op <;> unfold opOk <;> infer_instance

/-- Every step of the sequence satisfies `opOk` in the state it executes in. -/
def okSeq : DbState → List StoreOp → Prop
  | _, [] => True
  | db, op :: rest => opOk db op ∧ okSeq (applyOp db op) rest

instance instDecidableOkSeq : (db : DbState) → (ops : List StoreOp) → Decidable (okSeq db ops)
  | _, [] => isTrue trivial
  | db, op :: rest =>
    have : Decidable (okSeq (applyOp db op) rest) := instDecidableOkSeq (applyOp db op) rest
    inferInstanceAs (Decidable (_ ∧ _))

/-! ## Deployer output parsing (src/src/deployment_worker.rs, `Challenge::deploy`)

Child stdout lines are modelled as `List Char` (exact for ASCII; Rust slices bytes,
this embedding slices characters). The select loop interleaves stdout and stderr
until both are exhausted; stderr lines are only logged, so the model takes the list
of stdout lines in order. -/

/-- One iteration of the stdout branch of the select loop (deployment_worker.rs
lines 60-66): if the line starts with the character `$` (note: the code tests
the one-character prefix `"$"`), a newline is pushed when the buffer is nonempty and
the line minus its first two characters is appended. `none` models the panic of the
slice `&line[2..]` on a line shorter than two characters (a lone `$`). -/
def detailsStep (acc : List Char) (line : List Char) : Option (List Char) :=
  if line.head? = some '$' then
    if line.length < 2 then none
    else some ((if acc = [] then acc else acc ++ ['\n']) ++ line.drop 2)
  else some acc

/-- The details buffer after consuming all stdout lines, starting from `acc`. -/
def buildDetails : List (List Char) → List Char → Option (List Char)
  | [], acc => some acc
  | line :: rest, acc =>
    match detailsStep acc line with
    | none => none
    | some acc' => buildDetails rest acc'

/-- The `Challenge::deploy` (deployment_worker.rs lines 26-84), as a function of the
child's stdout lines and of whether its exit status was success: `Ok(details)` on
exit status 0, `Err(())` otherwise; `none` models a panic while parsing. -/
def deploy (stdoutLines : List (List Char)) (exitSuccess : Bool) : Option (Except Unit (List Char)) :=
  (buildDetails stdoutLines []).map (fun d => if exitSuccess then Except.ok d else Except.error ())

instance {ε α : Type} [DecidableEq ε] [DecidableEq α] : DecidableEq (Except ε α) := fun x y =>
  match x, y with
  | .ok a, .ok b =>
    if h : a = b then isTrue (by rw [h]) else
      isFalse (by intro hc; injection hc; contradiction)
  | .error e, .error f =>
    if h : e = f then isTrue (by rw [h]) else
      isFalse (by intro hc; injection hc; contradiction)
  | .ok _, .error _ => isFalse (fun hc => Except.noConfusion hc)
  | .error _, .ok _ => isFalse (fun hc => Except.noConfusion hc)

/-- Join a list of fragments with a single newline between consecutive fragments. -/
def joinNewline : List (List Char) → List Char
  | [] => []
  | [c] => c
  | c :: rest => c ++ '\n' :: joinNewline rest

/-- The details string as the SPEC describes it (refinement target, from the spec's
words, not from the source): the subsequence of stdout lines that begin with the
two-character prefix dollar-space, each stripped of that prefix, joined by a single
newline. -/
def specDetails (stdoutLines : List (List Char)) : List Char :=
  joinNewline ((stdoutLines.filter (fun l => decide (l.take 2 = ['$', ' ']))).map (fun l => l.drop 2))

/-- Closed form of the details buffer the CODE builds: lines whose first character
is `$`, each minus its first two characters, with leading empty contributions
collapsed, joined by single newlines. -/
def codeDetails (stdoutLines : List (List Char)) : List Char :=
  joinNewline ((((stdoutLines.filter (fun l => decide (l.head? = some '$'))).map
    (fun l => l.drop 2))).dropWhile (fun c => decide (c = [])))

/-! ## Worker requests, updates, expiry queue (src/src/deployment_worker.rs) -/

/-- The `DeploymentRequestCommand` (deployment_worker.rs lines 99-104). -/
inductive DeploymentRequestCommand where
  | Start
  | Stop
  | Restart
  | Cleanup
deriving DecidableEq, Repr

/-- The `DeploymentRequest` (deployment_worker.rs lines 92-96). -/
structure DeploymentRequest where
  user_id : String
  challenge_id : String
  command : DeploymentRequestCommand
deriving DecidableEq, Repr

/-- The `MessageSeverity` (deployment_worker.rs lines 132-137). -/
inductive MessageSeverity where
  | Success
  | Info
  | Warning
  | Error
deriving DecidableEq, Repr

/-- The `DeploymentUpdateDetails` (deployment_worker.rs lines 125-128). -/
inductive DeploymentUpdateDetails where
  | StateChange (state : ChallengeInstanceState) (details : Option String) (stop_time : Option Int)
  | Message (contents : String) (severity : MessageSeverity)
deriving DecidableEq, Repr

/-- The `DeploymentUpdate` (deployment_worker.rs lines 118-122). -/
structure DeploymentUpdate where
  user_id : String
  challenge_id : String
  details : DeploymentUpdateDetails
deriving DecidableEq, Repr

/-- The `ChallengeInstanceOrdered` (deployment_worker.rs lines 140-144): an Expiry Queue
entry, ordered by `stop_time`. -/
structure ExpiryEntry where
  user_id : String
  challenge_id : String
  stop_time : Int
deriving DecidableEq, Repr

/-- A duration of `n` seconds in the nanosecond model of `Duration`. -/
def secsDuration (n : Nat) : Int := n * 1000000000

/-- The `BinaryHeap<Reverse<_>>` of expiries is modelled as a list sorted by
ascending `stop_time`; `push` is sorted insertion. -/
def heapPush (e : ExpiryEntry) : List ExpiryEntry → List ExpiryEntry
  | [] => [e]
  | x :: xs => if e.stop_time ≤ x.stop_time then e :: x :: xs else x :: heapPush e xs

/-- The synthetic Stop request the expiry drain enqueues for an expired entry
(deployment_worker.rs lines 230-235). -/
def stopRequestOf (e : ExpiryEntry) : DeploymentRequest :=
  ⟨e.user_id, e.challenge_id, .Stop⟩

/-- The `StateChange(QueuedStop)` update the expiry drain broadcasts
(deployment_worker.rs lines 237-242). -/
def queuedStopUpdateOf (e : ExpiryEntry) : DeploymentUpdate :=
  ⟨e.user_id, e.challenge_id, .StateChange .QueuedStop none none⟩

/-- Result of one execution of the expiry-drain block at the top of
`DeploymentWorker::do_work` (deployment_worker.rs lines 217-245). -/
structure DrainResult where
  db : DbState
  heap : List ExpiryEntry
  requests : List DeploymentRequest
  updates : List DeploymentUpdate
  sleepTime : Int
deriving DecidableEq, Repr

/-- The expiry-drain loop of `DeploymentWorker::do_work` (deployment_worker.rs lines
217-245), with the clock fixed at `now`: while the head of the queue has
`stop_time ≤ now`, pop it and CAS its row `Running → QueuedStop`; on CAS success
enqueue a Stop request and broadcast a `StateChange(QueuedStop)`; stop with sleep
duration `stop_time - now` at the first entry still in the future, or 60 seconds on
an empty queue. -/
def drainExpiries (now : Int) : DbState → List ExpiryEntry → DrainResult
  | db, [] => ⟨db, [], [], [], secsDuration 60⟩
  | db, e :: rest =>
    if now < e.stop_time then ⟨db, e :: rest, [], [], e.stop_time - now⟩
    else
      let step := transition_challenge_instance_state db e.user_id e.challenge_id .Running .QueuedStop
      let r := drainExpiries now step.2 rest
      if step.1 then
        ⟨r.db, r.heap, stopRequestOf e :: r.requests, queuedStopUpdateOf e :: r.updates, r.sleepTime⟩
      else r

/-- Reference fold for the drain: thread the `Running → QueuedStop` CAS through a
list of entries, returning the final database and the sublist of entries whose CAS
succeeded, in order. -/
def casStopResults : DbState → List ExpiryEntry → DbState × List ExpiryEntry
  | db, [] => (db, [])
  | db, e :: rest =>
    let step := transition_challenge_instance_state db e.user_id e.challenge_id .Running .QueuedStop
    let r := casStopResults step.2 rest
    (r.1, if step.1 then e :: r.2 else r.2)

/-! ## Recovery (src/src/deployment_worker.rs, `DeploymentWorker::prepare`) -/

/-- The Cleanup request recovery enqueues for a transient-state row
(deployment_worker.rs lines 416-421). -/
def cleanupRequestOf (r : ChallengeInstance) : DeploymentRequest :=
  ⟨r.user_id, r.challenge_id, .Cleanup⟩

/-- The expiry entry rebuilt from a Running row (deployment_worker.rs lines 426-430);
`none` when `stop_time` is null, in which case `instance.stop_time.unwrap()` panics. -/
def runningEntry? (r : ChallengeInstance) : Option ExpiryEntry :=
  r.stop_time.map (fun t => ⟨r.user_id, r.challenge_id, t⟩)

/-- The expiry entries of the Running rows of a row list, in order (defined on the
rows that have a `stop_time`). -/
def runningEntries (rows : List ChallengeInstance) : List ExpiryEntry :=
  (rows.filter (fun r => decide (r.state = .Running))).filterMap runningEntry?

/-- The `DeploymentWorker::prepare` (deployment_worker.rs lines 412-434): read all
persisted instances; enqueue one Cleanup request per row in a queued state, in row
order; push one expiry entry per Running row, unwrapping its `stop_time`. The store
is only read, never written, so the database state is returned unchanged. `none`
models the `unwrap` panic on a Running row with null `stop_time`. -/
def prepare (db : DbState) (heap : List ExpiryEntry) :
    Option (List DeploymentRequest × DbState × List ExpiryEntry) :=
  let cleanups := (db.instances.filter (fun r => r.state.is_queued)).map cleanupRequestOf
  let running := db.instances.filter (fun r => decide (r.state = .Running))
  (running.mapM runningEntry?).map (fun es => (cleanups, db, es.foldl (fun h e => heapPush e h) heap))

/-! ## The Restart handler (src/src/deployment_worker.rs, `handle_request`, lines 339-373) -/

/-- Modelled from the spec: `Database::update_challenge_instance_state` is invoked by
the Restart handler (deployment_worker.rs line 344) but its definition is missing from
the provided sources. The spec (section 4.4.1, Restart) describes it as setting the
state back to Running "via an unconditional write (details/stop_time unchanged)", so
it is modelled as an update of the `state` column alone on the keyed row,
unconditioned on the current state. -/
def update_challenge_instance_state (db : DbState) (user_id challenge_id : String)
    (state : ChallengeInstanceState) : DbState :=
  { db with instances := db.instances.map (fun r =>
      if r.user_id = user_id ∧ r.challenge_id = challenge_id then { r with state := state } else r) }

/-- The Restart arm of `DeploymentWorker::handle_request` (deployment_worker.rs lines
339-373 together with the common tail at lines 395-407), as a function of whether the
deployer invocation succeeded. Returns the new database state, the requests enqueued,
and the updates broadcast, in order. In the failure-branch message text the two French
apostrophes of the source are rendered as spaces; no claim depends on that text. -/
def handleRestart (db : DbState) (user_id challenge_id challenge_name : String)
    (deployOk : Bool) : DbState × List DeploymentRequest × List DeploymentUpdate :=
  if deployOk then
    (update_challenge_instance_state db user_id challenge_id .Running,
     [],
     [⟨user_id, challenge_id, .StateChange .Running none none⟩,
      ⟨user_id, challenge_id,
        .Message ("Le défi <strong>" ++ challenge_name ++ "</strong> a été redémarré!") .Success⟩])
  else
    (db,
     [⟨user_id, challenge_id, .Cleanup⟩],
     [⟨user_id, challenge_id, .StateChange .QueuedRestart none none⟩,
      ⟨user_id, challenge_id,
        .Message ("Le défi <strong>" ++ challenge_name
          ++ "</strong> n a pas pu être redémarré.<br>Contactez un administrateur si l erreur persiste.") .Error⟩])

/-! ## Time model (src/src/models.rs, `TimeSinceEpoch`) -/

/-- The `SystemTime::duration_since` followed by `unwrap`, the body of `Sub for
&TimeSinceEpoch` (src/src/models.rs lines 109-115): defined only when the
subtrahend is not later than the minuend; `none` models the panic. -/
def timeSub (a b : Int) : Option Int := if b ≤ a then some (a - b) else none

/-- The sleep-deadline branch of the drain loop (deployment_worker.rs lines 223-225)
with its two distinct clock readings made explicit: the guard compares `stop_time`
against a first reading `now1`; when it passes, the returned duration subtracts a
second, later reading `now2`. The outer `Option` is `none` when the guard does not
fire; the inner `Option` is `none` when the subtraction panics. -/
def sleepDeadlineTwoReads (stop now1 now2 : Int) : Option (Option Int) :=
  if now1 < stop then some (timeSub stop now2) else none

/-! ## Configuration: the ttl deserializer (src/src/config.rs, lines 50-70)

Strings are modelled as `List Char`, restricted to the ASCII fragment: Rust's
regex class `\d` is Unicode there, this embedding treats it as the ASCII digits. -/

/-- ASCII digit test. -/
def isAsciiDigit (c : Char) : Bool := decide ('0' ≤ c ∧ c ≤ '9')

/-- The tail of the regex: zero or more digits followed by one unit letter, anchored. -/
def digitsThenUnit : List Char → Bool
  | [] => false
  | [c] => decide (c = 's' ∨ c = 'm' ∨ c = 'h' ∨ c = 'd')
  | c :: rest => isAsciiDigit c && digitsThenUnit rest

/-- The anchored duration regex of config.rs line 53: a nonzero digit, then digits,
then a unit letter. -/
def matchesDurationRegex : List Char → Bool
  | [] => false
  | c :: rest => decide ('1' ≤ c ∧ c ≤ '9') && digitsThenUnit rest

/-- Numeric value of a decimal digit string (the semantics of `str::parse`
on a digit-only string, before the u32 range check). -/
def natOfDigits (cs : List Char) : Nat :=
  cs.foldl (fun acc c => acc * 10 + (c.toNat - Char.toNat '0')) 0

/-- The `match` on the last character (config.rs lines 60-66); `none` is the
unreachable panic arm. -/
def unitMultiplier : Char → Option Nat
  | 's' => some 1
  | 'm' => some 60
  | 'h' => some (60 * 60)
  | 'd' => some (60 * 60 * 24)
  | _ => none

/-- The `deserialize_duration` function (config.rs lines 50-70): reject with a serde
error when the regex does not match (the Rust message interpolates the offending
value; it is modelled as a fixed text); otherwise pick the unit multiplier from the last character,
parse the digit prefix as u32 — the outer `none` models the `unwrap` panic when the
value exceeds `u32::MAX` — and return value times multiplier as u32 (wrapping
arithmetic, hence the explicit `% 2 ^ 32`). -/
def deserialize_duration (s : List Char) : Option (Except String Nat) :=
  if matchesDurationRegex s then
    match unitMultiplier (s.getLastD ' ') with
    | none => none
    | some mult =>
      let v := natOfDigits s.dropLast
      if v < 2 ^ 32 then some (Except.ok ((v * mult) % 2 ^ 32))
      else none
  else some (Except.error "did not match duration regex")

/-! # Theorems -/

theorem countP_split {α : Type} (l : List α) (p q : α → Bool) :
    l.countP p = l.countP (fun a => p a && q a) + l.countP (fun a => p a && !q a) := by
  induction l with
  | nil => simp
  | cons a l ih =>
    by_cases hp : p a <;> by_cases hq : q a <;>
      simp [List.countP_cons, hp, hq, ih] <;> omega

theorem countP_key_eq_one (l : List ChallengeInstance) (u c : String)
    (hnd : (l.map instKey).Nodup)
    (hex : ∃ r ∈ l, r.user_id = u ∧ r.challenge_id = c) :
    l.countP (fun r => decide (r.user_id = u ∧ r.challenge_id = c)) = 1 := by
  induction l with
  | nil => simp at hex
  | cons a l ih =>
    simp only [List.map_cons, List.nodup_cons] at hnd
    by_cases hk : a.user_id = u ∧ a.challenge_id = c
    · have h0 : l.countP (fun r => decide (r.user_id = u ∧ r.challenge_id = c)) = 0 := by
        rw [List.countP_eq_zero]
        intro r hr hdec
        rw [decide_eq_true_eq] at hdec
        exact absurd (by
          rw [show instKey a = instKey r from by simp [instKey, hk.1, hk.2, hdec.1, hdec.2]]
          exact List.mem_map_of_mem instKey hr) hnd.1
      rw [List.countP_cons, h0, if_pos (by simpa using hk)]
    · obtain ⟨r, hr, hkey⟩ := hex
      rcases List.mem_cons.mp hr with rfl | hr
      · exact absurd hkey hk
      · rw [List.countP_cons, ih hnd.2 ⟨r, hr, hkey⟩, if_neg (by simpa using hk)]

theorem countP_user_map (l : List ChallengeInstance) (f : ChallengeInstance → ChallengeInstance)
    (hf : ∀ r, (f r).user_id = r.user_id) (uid : String) :
    (l.map f).countP (fun r => decide (r.user_id = uid)) =
      l.countP (fun r => decide (r.user_id = uid)) := by
  rw [List.countP_map]
  exact List.countP_congr (fun r _ => by simp [Function.comp, hf r])

theorem countInv_map_instances (db : DbState) (f : ChallengeInstance → ChallengeInstance)
    (hf : ∀ r, (f r).user_id = r.user_id) (hinv : countInv db) :
    countInv { db with instances := db.instances.map f } := by
  intro u hu
  have h1 := hinv u hu
  unfold instancesFor at h1 ⊢
  simpa [countP_user_map db.instances f hf u.id] using h1

theorem dbWF_map_instances (db : DbState) (f : ChallengeInstance → ChallengeInstance)
    (hf : ∀ r, instKey (f r) = instKey r) (hwf : dbWF db) :
    dbWF { db with instances := db.instances.map f } := by
  refine ⟨hwf.1, ?_⟩
  show ((db.instances.map f).map instKey).Nodup
  rw [List.map_map, show instKey ∘ f = instKey from funext hf]
  exact hwf.2

theorem countInv_insert_op (db : DbState) (inst : ChallengeInstance) (m : Nat)
    (hwf : dbWF db) (hinv : countInv db) :
    countInv (insert_challenge_instance db inst m).2 := by
  unfold insert_challenge_instance
  simp only
  split
  · exact hinv
  split
  · exact hinv
  rename_i haff hexists
  intro u hu
  obtain ⟨u0, hu0, rfl⟩ := List.mem_map.mp hu
  have h1 := hinv u0 hu0
  unfold instancesFor at h1 ⊢
  simp only at h1 ⊢
  rw [List.countP_append]
  unfold bumpUser
  by_cases hc : u0.id = inst.user_id ∧ u0.instance_count < (m : Int)
  · rw [if_pos hc]
    simp only [List.countP_singleton]
    rw [if_pos (by simp [hc.1])]
    push_cast
    omega
  · rw [if_neg hc]
    have hne : ¬ inst.user_id = u0.id := by
      intro he
      have hpos : 0 < db.users.countP
          (fun v => decide (v.id = inst.user_id ∧ v.instance_count < (m : Int))) :=
        Nat.pos_of_ne_zero haff
      obtain ⟨v, hv, hvp⟩ := List.countP_pos_iff.mp hpos
      rw [decide_eq_true_eq] at hvp
      have hveq : v = u0 :=
        List.inj_on_of_nodup_map hwf.1 hv hu0 (by rw [hvp.1, he])
      exact hc ⟨he.symm, hveq ▸ hvp.2⟩
    simp only [List.countP_singleton]
    rw [if_neg (by simpa using hne)]
    push_cast
    omega

theorem dbWF_insert_op (db : DbState) (inst : ChallengeInstance) (m : Nat)
    (hwf : dbWF db) : dbWF (insert_challenge_instance db inst m).2 := by
  unfold insert_challenge_instance
  simp only
  split
  · exact hwf
  split
  · exact hwf
  rename_i haff hexists
  refine ⟨?_, ?_⟩
  · show ((db.users.map (bumpUser inst.user_id m)).map User.id).Nodup
    rw [List.map_map,
      show User.id ∘ bumpUser inst.user_id m = User.id from
        funext (fun v => by simp only [Function.comp_apply]; unfold bumpUser; split <;> rfl)]
    exact hwf.1
  · show ((db.instances ++ [inst]).map instKey).Nodup
    rw [List.map_append, List.nodup_append]
    refine ⟨hwf.2, List.nodup_singleton _, ?_⟩
    intro k hk1 hk2
    simp only [List.map_cons, List.map_nil, List.mem_singleton] at hk2
    obtain ⟨r, hr, rfl⟩ := List.mem_map.mp hk1
    apply hexists
    rw [List.any_eq_true]
    refine ⟨r, hr, ?_⟩
    rw [decide_eq_true_eq]
    have h1 : r.user_id = inst.user_id ∧ r.challenge_id = inst.challenge_id := by
      have := hk2
      unfold instKey at this
      exact ⟨congrArg Prod.fst this, congrArg Prod.snd this⟩
    exact h1

theorem countInv_delete_op (db : DbState) (u c : String)
    (hwf : dbWF db) (hinv : countInv db)
    (hex : ∃ r ∈ db.instances, r.user_id = u ∧ r.challenge_id = c) :
    countInv (delete_challenge_instance db u c) := by
  intro u' hu'
  unfold delete_challenge_instance at hu' ⊢
  simp only at hu' ⊢
  obtain ⟨u0, hu0, rfl⟩ := List.mem_map.mp hu'
  have h1 := hinv u0 hu0
  unfold instancesFor at h1 ⊢
  simp only at h1 ⊢
  rw [List.countP_filter]
  by_cases hid : u0.id = u
  · rw [if_pos hid]
    simp only
    have hkey1 : db.instances.countP (fun r => decide (r.user_id = u ∧ r.challenge_id = c)) = 1 :=
      countP_key_eq_one db.instances u c hwf.2 hex
    have hsplit := countP_split db.instances (fun r => decide (r.user_id = u0.id))
      (fun r => decide (¬(r.user_id = u ∧ r.challenge_id = c)))
    have h2 : db.instances.countP
        (fun r => decide (r.user_id = u0.id) && !decide (¬(r.user_id = u ∧ r.challenge_id = c))) =
        db.instances.countP (fun r => decide (r.user_id = u ∧ r.challenge_id = c)) := by
      apply List.countP_congr
      intro r _
      subst hid
      simp only [Bool.and_eq_true, decide_eq_true_eq, Bool.not_eq_true', decide_eq_false_iff_not,
        not_not]
      constructor
      · exact fun h => h.2
      · exact fun h => ⟨h.1, h⟩
    rw [h2, hkey1] at hsplit
    omega
  · rw [if_neg hid]
    have h3 : db.instances.countP
        (fun r => decide (r.user_id = u0.id) && decide (¬(r.user_id = u ∧ r.challenge_id = c))) =
        db.instances.countP (fun r => decide (r.user_id = u0.id)) := by
      apply List.countP_congr
      intro r _
      simp only [Bool.and_eq_true, decide_eq_true_eq]
      constructor
      · exact fun h => h.1
      · exact fun h => ⟨h, fun hk => hid (h ▸ hk.1 ▸ rfl)⟩
    rw [h3]
    exact h1

theorem dbWF_delete_op (db : DbState) (u c : String) (hwf : dbWF db) :
    dbWF (delete_challenge_instance db u c) := by
  refine ⟨?_, ?_⟩
  · show ((db.users.map _).map User.id).Nodup
    rw [List.map_map,
      show User.id ∘ (fun v : User =>
          if v.id = u then { v with instance_count := v.instance_count - 1 } else v) = User.id from
        funext (fun v => by simp only [Function.comp]; split <;> rfl)]
    exact hwf.1
  · exact ((List.filter_sublist db.instances).map instKey).nodup hwf.2

theorem dbWF_applyOp (db : DbState) (op : StoreOp) (hwf : dbWF db) :
    dbWF (applyOp db op) := by
  cases op with
  | insert inst m => exact dbWF_insert_op db inst m hwf
  | transition u c o n =>
      exact dbWF_map_instances db _ (fun r => by split <;> rfl) hwf
  | populate u c d t =>
      exact dbWF_map_instances db _ (fun r => by split <;> rfl) hwf
  | extend u c t =>
      exact dbWF_map_instances db _ (fun r => by split <;> rfl) hwf
  | delete u c => exact dbWF_delete_op db u c hwf

theorem countInv_applyOp (db : DbState) (op : StoreOp)
    (hwf : dbWF db) (hinv : countInv db) (hok : opOk db op) :
    countInv (applyOp db op) := by
  cases op with
  | insert inst m => exact countInv_insert_op db inst m hwf hinv
  | transition u c o n =>
      exact countInv_map_instances db _ (fun r => by split <;> rfl) hinv
  | populate u c d t =>
      exact countInv_map_instances db _ (fun r => by split <;> rfl) hinv
  | extend u c t =>
      exact countInv_map_instances db _ (fun r => by split <;> rfl) hinv
  | delete u c => exact countInv_delete_op db u c hwf hinv hok

/-- C1 (amended): starting from a well-formed store (unique user ids, unique
instance keys) in which the invariant holds, any sequence of Store operations in
which every `delete_instance` call targets a key that has an instance row preserves
the invariant: every user's `instance_count` equals the number of persisted
instance rows for that user. (The restriction on deletes is forced by
`countInv_not_preserved_by_delete`: the code decrements unconditionally.) -/
theorem countInv_preserved (ops : List StoreOp) : ∀ (db : DbState),
    dbWF db → countInv db → okSeq db ops → countInv (applyOps db ops) := by
  induction ops with
  | nil => exact fun db _ hinv _ => hinv
  | cons op rest ih =>
      intro db hwf hinv hok
      exact ih (applyOp db op) (dbWF_applyOp db op hwf)
        (countInv_applyOp db op hwf hinv hok.1) hok.2

/-- Witness for `countInv_preserved`: a concrete run — insert an instance for a
user, populate it to Running, delete it — keeps the invariant. -/
theorem countInv_preserved_witness :
    (let db0 : DbState := ⟨[⟨"u1", "alice", "Alice", "av", 0, 0⟩], []⟩
    let ops : List StoreOp :=
      [.insert ⟨"u1", "c1", .QueuedStart, none, none⟩ 3,
       .populate "u1" "c1" "host=1" 7,
       .delete "u1" "c1"]
    dbWF db0 ∧ countInv db0 ∧ okSeq db0 ops ∧ countInv (applyOps db0 ops)) := by
  refine ⟨by decide, by decide, by decide, ?_⟩
  exact countInv_preserved _ _ (by decide) (by decide) (by decide)

/-- C2: evaluation of `Database::delete_challenge_instance` at the failing input.
Starting from a user with one instance row, the first delete removes the row and
decrements `instance_count` to 0; the second delete removes nothing but still
decrements `instance_count`, to -1 — the decrement is not joined to the delete's
row count, so `delete_instance` is not idempotent and the second call is not a
no-op. -/
theorem delete_challenge_instance_double_decrement :
    (let db1 : DbState :=
      ⟨[⟨"u1", "alice", "Alice", "av", 0, 1⟩], [⟨"u1", "c1", .Running, some "d", some 5⟩]⟩
    let db2 := delete_challenge_instance db1 "u1" "c1"
    let db3 := delete_challenge_instance db2 "u1" "c1"
    countInv db2 ∧ db2.instances = [] ∧ db2.users.map User.instance_count = [0] ∧
      db3.instances = [] ∧ db3.users.map User.instance_count = [-1] ∧ ¬ countInv db3) := by
  decide

/-- C1 counterexample: the instance-count invariant holds in a state with one user
(`instance_count = 0`, no rows), yet a single Store operation — `delete_instance`
on a key with no row — leaves `instance_count = -1` while the row count is still 0,
so the invariant is not preserved by every sequence of Store operations. -/
theorem countInv_not_preserved_by_delete :
    (let db0 : DbState := ⟨[⟨"u1", "alice", "Alice", "av", 0, 0⟩], []⟩
    dbWF db0 ∧ countInv db0 ∧ ¬ countInv (applyOps db0 [.delete "u1" "c1"])) := by
  decide

/-- C3: `insert_challenge_instance` has exactly three outcomes. `LimitReached` is
returned iff no user row has the requested id with `instance_count` below the limit
(user missing or at the limit), with no state change; `Exists` is returned iff the
conditional increment succeeded but an instance row with the key already exists
(unique violation), and the rollback leaves the state unchanged; `Inserted` commits
the increment and the new row; and the operation never raises a user's
`instance_count` above `max_concurrent`. -/
theorem insert_challenge_instance_spec (db : DbState) (inst : ChallengeInstance) (m : Nat) :
    (let res := insert_challenge_instance db inst m
    ((res.1 = .LimitReached ↔
        ¬ ∃ u ∈ db.users, u.id = inst.user_id ∧ u.instance_count < (m : Int)) ∧
      (res.1 = .LimitReached → res.2 = db)) ∧
    ((res.1 = .Exists ↔
        (∃ u ∈ db.users, u.id = inst.user_id ∧ u.instance_count < (m : Int)) ∧
        ∃ r ∈ db.instances, r.user_id = inst.user_id ∧ r.challenge_id = inst.challenge_id) ∧
      (res.1 = .Exists → res.2 = db)) ∧
    (res.1 = .Inserted →
      res.2.users = db.users.map (bumpUser inst.user_id m) ∧
      res.2.instances = db.instances ++ [inst]) ∧
    ((∀ u ∈ db.users, u.instance_count ≤ (m : Int)) →
      ∀ u ∈ res.2.users, u.instance_count ≤ (m : Int))) := by
  unfold insert_challenge_instance
  simp only
  split
  · rename_i haff
    have hno : ¬ ∃ u ∈ db.users, u.id = inst.user_id ∧ u.instance_count < (m : Int) := by
      rw [List.countP_eq_zero] at haff
      rintro ⟨u, hu, hc⟩
      exact haff u hu (by rw [decide_eq_true_eq]; exact hc)
    exact ⟨⟨iff_of_true rfl hno, fun _ => rfl⟩,
      ⟨iff_of_false (by simp) (fun h => hno h.1), fun h => absurd h (by simp)⟩,
      fun h => absurd h (by simp), fun hb => hb⟩
  split
  · rename_i haff hany
    have hyes : ∃ u ∈ db.users, u.id = inst.user_id ∧ u.instance_count < (m : Int) := by
      obtain ⟨u, hu, hp⟩ := List.countP_pos_iff.mp (Nat.pos_of_ne_zero haff)
      exact ⟨u, hu, by rwa [decide_eq_true_eq] at hp⟩
    have hrow : ∃ r ∈ db.instances, r.user_id = inst.user_id ∧ r.challenge_id = inst.challenge_id := by
      obtain ⟨r, hr, hp⟩ := List.any_eq_true.mp hany
      exact ⟨r, hr, by rwa [decide_eq_true_eq] at hp⟩
    exact ⟨⟨iff_of_false (by simp) (fun h => h hyes), fun h => absurd h (by simp)⟩,
      ⟨iff_of_true rfl ⟨hyes, hrow⟩, fun _ => rfl⟩,
      fun h => absurd h (by simp), fun hb => hb⟩
  rename_i haff hany
  have hyes : ∃ u ∈ db.users, u.id = inst.user_id ∧ u.instance_count < (m : Int) := by
    obtain ⟨u, hu, hp⟩ := List.countP_pos_iff.mp (Nat.pos_of_ne_zero haff)
    exact ⟨u, hu, by rwa [decide_eq_true_eq] at hp⟩
  have hnorow : ¬ ∃ r ∈ db.instances, r.user_id = inst.user_id ∧ r.challenge_id = inst.challenge_id := by
    rintro ⟨r, hr, hc⟩
    exact hany (List.any_eq_true.mpr ⟨r, hr, by rw [decide_eq_true_eq]; exact hc⟩)
  refine ⟨⟨iff_of_false (by simp) (fun h => h hyes), fun h => absurd h (by simp)⟩,
    ⟨iff_of_false (by simp) (fun h => hnorow h.2), fun h => absurd h (by simp)⟩,
    fun _ => ⟨rfl, rfl⟩, ?_⟩
  intro hb u hu
  obtain ⟨u0, hu0, rfl⟩ := List.mem_map.mp hu
  unfold bumpUser
  split
  · rename_i hc
    simp only
    have := hc.2
    omega
  · exact hb u0 hu0

/-- Witness for `insert_challenge_instance_spec`: a successful insertion commits the
row and keeps every `instance_count` at or below the limit. -/
theorem insert_challenge_instance_spec_witness :
    (let db : DbState := ⟨[⟨"u1", "alice", "Alice", "av", 0, 0⟩], []⟩
    let inst : ChallengeInstance := ⟨"u1", "c1", .QueuedStart, none, none⟩
    (insert_challenge_instance db inst 2).2.instances = db.instances ++ [inst] ∧
      ∀ u ∈ (insert_challenge_instance db inst 2).2.users, u.instance_count ≤ (2 : Int)) := by
  exact ⟨((insert_challenge_instance_spec _ _ 2).2.2.1 (by decide)).2,
    (insert_challenge_instance_spec _ _ 2).2.2.2 (by decide)⟩

/-- C7: on a Restart request whose deployer invocation succeeds, the handler writes
`state = Running` on the keyed row unconditionally while leaving `details`,
`stop_time` and the key of every row unchanged (and rows with other keys entirely
unchanged, as is the users table), enqueues nothing, and broadcasts exactly a
`StateChange(Running)` followed by a success `Message`. -/
theorem handleRestart_success_spec (db : DbState) (u c nm : String) :
    (∀ i : Nat, (handleRestart db u c nm true).1.instances[i]? =
      (db.instances[i]?).map (fun row =>
        ⟨row.user_id, row.challenge_id,
         if row.user_id = u ∧ row.challenge_id = c then .Running else row.state,
         row.details, row.stop_time⟩)) ∧
    (handleRestart db u c nm true).1.users = db.users ∧
    (handleRestart db u c nm true).2.1 = [] ∧
    (handleRestart db u c nm true).2.2 =
      [⟨u, c, .StateChange .Running none none⟩,
       ⟨u, c, .Message ("Le défi <strong>" ++ nm ++ "</strong> a été redémarré!") .Success⟩] := by
  refine ⟨?_, rfl, rfl, rfl⟩
  intro i
  rw [show (handleRestart db u c nm true).1.instances
      = db.instances.map (fun r =>
          if r.user_id = u ∧ r.challenge_id = c then { r with state := .Running } else r) from rfl,
    List.getElem?_map]
  congr 1
  funext row
  by_cases hc : row.user_id = u ∧ row.challenge_id = c
  · rw [if_pos hc, if_pos hc]
  · rw [if_neg hc, if_neg hc]

theorem mapM_option_eq_some_of_forall {α β : Type} (f : α → Option β) (l : List α)
    (h : ∀ a ∈ l, (f a).isSome) : l.mapM f = some (l.filterMap f) := by
  induction l with
  | nil => rfl
  | cons a l ih =>
    obtain ⟨b, hb⟩ := Option.isSome_iff_exists.mp (h a (List.mem_cons_self a l))
    rw [List.mapM_cons, hb, ih (fun x hx => h x (List.mem_cons_of_mem a hx))]
    simp [List.filterMap_cons, hb]

theorem mapM_option_eq_none_of_mem {α β : Type} (f : α → Option β) (l : List α)
    (a : α) (ha : a ∈ l) (hf : f a = none) : l.mapM f = none := by
  induction l with
  | nil => simp at ha
  | cons x l ih =>
    rcases List.mem_cons.mp ha with rfl | ha
    · rw [List.mapM_cons, hf]
      rfl
    · cases hx : f x with
      | none => rw [List.mapM_cons, hx]; rfl
      | some b => rw [List.mapM_cons, hx, ih ha]; rfl

/-- C9: the `stop_time.unwrap()` in recovery is unreachable under the spec's
invariant: if every persisted Running row has a non-null `stop_time`, `prepare`
completes without panicking; conversely a single Running row with null `stop_time`
makes `prepare` panic, aborting startup. -/
theorem prepare_panic_spec (db : DbState) (heap : List ExpiryEntry) :
    ((∀ r ∈ db.instances, r.state = .Running → r.stop_time.isSome) →
      (prepare db heap).isSome) ∧
    ((∃ r ∈ db.instances, r.state = .Running ∧ r.stop_time = none) →
      prepare db heap = none) := by
  constructor
  · intro h
    unfold prepare
    simp only
    rw [mapM_option_eq_some_of_forall]
    · simp
    · intro r hr
      rw [List.mem_filter] at hr
      have := h r hr.1 (by simpa using hr.2)
      unfold runningEntry?
      simpa using this
  · rintro ⟨r, hr, hrun, hnone⟩
    unfold prepare
    simp only
    rw [mapM_option_eq_none_of_mem _ _ r]
    · rfl
    · rw [List.mem_filter]
      exact ⟨hr, by simp [hrun]⟩
    · unfold runningEntry?
      rw [hnone]
      rfl

/-- Witness for `prepare_panic_spec`: recovery succeeds on a Running row with a stop
time and panics on a Running row with a null one. -/
theorem prepare_panic_spec_witness :
    (prepare ⟨[], [⟨"u1", "c1", .Running, some "d", some 9⟩]⟩ []).isSome ∧
      prepare ⟨[], [⟨"u1", "c1", .Running, some "d", none⟩]⟩ [] = none := by
  exact ⟨(prepare_panic_spec _ _).1 (by decide),
    (prepare_panic_spec _ _).2 ⟨⟨"u1", "c1", .Running, some "d", none⟩, by decide, by decide, rfl⟩⟩

theorem heapPush_perm (e : ExpiryEntry) (l : List ExpiryEntry) :
    (heapPush e l).Perm (e :: l) := by
  induction l with
  | nil => exact List.Perm.refl _
  | cons x xs ih =>
    unfold heapPush
    split
    · exact List.Perm.refl _
    · exact (ih.cons x).trans (List.Perm.swap e x xs)

theorem foldl_heapPush_perm (es : List ExpiryEntry) : ∀ (heap : List ExpiryEntry),
    (es.foldl (fun h e => heapPush e h) heap).Perm (heap ++ es) := by
  induction es with
  | nil => intro heap; simp
  | cons e es ih =>
    intro heap
    refine (ih (heapPush e heap)).trans ?_
    refine ((heapPush_perm e heap).append_right es).trans ?_
    exact List.perm_middle.symm

/-- C6: recovery, run once before any worker starts, enqueues exactly one Cleanup
request per persisted instance whose state is queued (`QueuedStart`, `QueuedStop`
or `QueuedRestart`), in row order; rebuilds the Expiry Queue by inserting exactly
one `(user_id, challenge_id, stop_time)` entry per persisted Running row (the new
queue is a permutation of the old entries plus those); and performs no mutation of
the durable store (the database state is returned unchanged). Stated under the
spec's invariant that Running rows carry a `stop_time` (see `prepare_panic_spec`). -/
theorem prepare_spec (db : DbState) (heap : List ExpiryEntry)
    (h : ∀ r ∈ db.instances, r.state = .Running → r.stop_time.isSome) :
    prepare db heap =
      some ((db.instances.filter (fun r => r.state.is_queued)).map cleanupRequestOf, db,
        (runningEntries db.instances).foldl (fun hp e => heapPush e hp) heap) ∧
    ((runningEntries db.instances).foldl (fun hp e => heapPush e hp) heap).Perm
      (heap ++ runningEntries db.instances) := by
  constructor
  · unfold prepare
    simp only
    rw [mapM_option_eq_some_of_forall]
    · rfl
    · intro r hr
      rw [List.mem_filter] at hr
      have := h r hr.1 (by simpa using hr.2)
      unfold runningEntry?
      simpa using this
  · exact foldl_heapPush_perm _ heap

/-- Witness for `prepare_spec`: one queued row yields exactly its Cleanup request,
one Running row yields exactly its expiry entry, the store is untouched. -/
theorem prepare_spec_witness :
    prepare ⟨[], [⟨"u1", "c1", .QueuedStart, none, none⟩,
                  ⟨"u1", "c2", .Running, some "d", some 9⟩]⟩ [] =
      some ([⟨"u1", "c1", .Cleanup⟩],
            ⟨[], [⟨"u1", "c1", .QueuedStart, none, none⟩,
                  ⟨"u1", "c2", .Running, some "d", some 9⟩]⟩,
            [⟨"u1", "c2", 9⟩]) ∧
    ([⟨"u1", "c2", 9⟩] : List ExpiryEntry).Perm [⟨"u1", "c2", 9⟩] := by
  have h := prepare_spec ⟨[], [⟨"u1", "c1", .QueuedStart, none, none⟩,
                              ⟨"u1", "c2", .Running, some "d", some 9⟩]⟩ [] (by decide)
  exact ⟨h.1, h.2⟩

/-- C5: one expiry-drain pass with the clock at `now`, over a queue sorted by
ascending stop time: exactly the entries with `stop_time ≤ now` (the sorted prefix)
are popped and the remaining queue consists of the entries still in the future; for
each popped entry the `Running → QueuedStop` CAS is attempted, in order, against the
threaded database state, and exactly the entries whose CAS succeeded produce — in
order — one Stop request and one `StateChange(QueuedStop)` broadcast each, a failed
CAS producing neither; the sleep deadline is `stop_time − now` of the next remaining
expiry, or 60 seconds when the queue has emptied. -/
theorem drainExpiries_spec (now : Int) (db : DbState) (heap : List ExpiryEntry)
    (hs : heap.Pairwise (fun a b => a.stop_time ≤ b.stop_time)) :
    (drainExpiries now db heap).heap = heap.filter (fun e => decide (now < e.stop_time)) ∧
    (drainExpiries now db heap).db =
      (casStopResults db (heap.takeWhile (fun e => decide (e.stop_time ≤ now)))).1 ∧
    (drainExpiries now db heap).requests =
      (casStopResults db (heap.takeWhile (fun e => decide (e.stop_time ≤ now)))).2.map
        stopRequestOf ∧
    (drainExpiries now db heap).updates =
      (casStopResults db (heap.takeWhile (fun e => decide (e.stop_time ≤ now)))).2.map
        queuedStopUpdateOf ∧
    (drainExpiries now db heap).sleepTime =
      (match heap.filter (fun e => decide (now < e.stop_time)) with
       | [] => secsDuration 60
       | e :: _ => e.stop_time - now) := by
  induction heap generalizing db with
  | nil => exact ⟨rfl, rfl, rfl, rfl, rfl⟩
  | cons e rest ih =>
    rw [List.pairwise_cons] at hs
    by_cases hnow : now < e.stop_time
    · have hfilter : (e :: rest).filter (fun x => decide (now < x.stop_time)) = e :: rest :=
        List.filter_eq_self.mpr (fun x hx => by
          rcases List.mem_cons.mp hx with rfl | hx
          · simpa using hnow
          · simp only [decide_eq_true_eq]
            exact lt_of_lt_of_le hnow (hs.1 x hx))
      have htake : (e :: rest).takeWhile (fun x => decide (x.stop_time ≤ now)) = [] :=
        List.takeWhile_cons_of_neg (by simp only [decide_eq_true_eq]; omega)
      rw [hfilter, htake]
      unfold drainExpiries
      rw [if_pos hnow]
      exact ⟨rfl, rfl, rfl, rfl, rfl⟩
    · have htake : (e :: rest).takeWhile (fun x => decide (x.stop_time ≤ now)) =
          e :: rest.takeWhile (fun x => decide (x.stop_time ≤ now)) :=
        List.takeWhile_cons_of_pos (by simp only [decide_eq_true_eq]; omega)
      have hfilter : (e :: rest).filter (fun x => decide (now < x.stop_time)) =
          rest.filter (fun x => decide (now < x.stop_time)) :=
        List.filter_cons_of_neg (by simp only [decide_eq_true_eq]; omega)
      rw [htake, hfilter]
      unfold drainExpiries casStopResults
      rw [if_neg hnow]
      simp only
      have ih' := ih
        (transition_challenge_instance_state db e.user_id e.challenge_id .Running .QueuedStop).2
        hs.2
      by_cases hb :
          (transition_challenge_instance_state db e.user_id e.challenge_id .Running .QueuedStop).1
      · rw [if_pos hb, if_pos hb]
        exact ⟨ih'.1, ih'.2.1,
          by rw [List.map_cons, ← ih'.2.2.1],
          by rw [List.map_cons, ← ih'.2.2.2.1],
          ih'.2.2.2.2⟩
      · rw [if_neg hb, if_neg hb]
        exact ih'

/-- Witness for `drainExpiries_spec`: with the clock at 10, an expired entry (stop
time 5) whose row is Running is popped, its CAS succeeds, one Stop request and one
`StateChange(QueuedStop)` are produced, and the future entry (stop time 20) stays,
giving a 10-unit sleep. -/
theorem drainExpiries_spec_witness :
    (let db : DbState := ⟨[], [⟨"u1", "c1", .Running, some "d", some 5⟩]⟩
    let heap : List ExpiryEntry := [⟨"u1", "c1", 5⟩, ⟨"u2", "c2", 20⟩]
    (drainExpiries 10 db heap).heap = [⟨"u2", "c2", 20⟩] ∧
    (drainExpiries 10 db heap).requests = [⟨"u1", "c1", .Stop⟩] ∧
    (drainExpiries 10 db heap).updates = [⟨"u1", "c1", .StateChange .QueuedStop none none⟩] ∧
    (drainExpiries 10 db heap).sleepTime = 10) := by
  have h := drainExpiries_spec 10 ⟨[], [⟨"u1", "c1", .Running, some "d", some 5⟩]⟩
    [⟨"u1", "c1", 5⟩, ⟨"u2", "c2", 20⟩] (by decide)
  exact ⟨h.1, h.2.2.1, h.2.2.2.1, h.2.2.2.2⟩

/-- C10: the sleep-deadline computation with its two clock readings made explicit:
once the guard `stop_time > now1` passes, the subtraction against the second reading
`now2` does not underflow — and hence does not panic — exactly when `stop_time` is
still no earlier than `now2`; if the clock passes `stop_time` between the two
readings, the `duration_since` unwrap panics. -/
theorem sleepDeadlineTwoReads_spec (stop now1 now2 : Int) (h1 : now1 < stop) :
    (now2 ≤ stop → sleepDeadlineTwoReads stop now1 now2 = some (some (stop - now2))) ∧
    (stop < now2 → sleepDeadlineTwoReads stop now1 now2 = some none) := by
  unfold sleepDeadlineTwoReads timeSub
  refine ⟨fun h2 => ?_, fun h2 => ?_⟩
  · rw [if_pos h1, if_pos h2]
  · rw [if_pos h1, if_neg (by omega)]

/-- Witness for `sleepDeadlineTwoReads_spec` at concrete readings: no panic while the
stop time is still ahead; panic when the second reading passes it. -/
theorem sleepDeadlineTwoReads_spec_witness :
    sleepDeadlineTwoReads 10 5 7 = some (some 3) ∧
      sleepDeadlineTwoReads 10 5 11 = some none := by
  constructor
  · have h := (sleepDeadlineTwoReads_spec 10 5 7 (by decide)).1 (by decide)
    simpa using h
  · exact (sleepDeadlineTwoReads_spec 10 5 11 (by decide)).2 (by decide)

theorem joinNewline_append_head (acc c : List Char) (cs : List (List Char)) :
    joinNewline ((acc ++ '\n' :: c) :: cs) = acc ++ '\n' :: joinNewline (c :: cs) := by
  cases cs with
  | nil => rfl
  | cons d ds =>
    show (acc ++ '\n' :: c) ++ '\n' :: joinNewline (d :: ds)
        = acc ++ '\n' :: (c ++ '\n' :: joinNewline (d :: ds))
    simp [List.append_assoc]

theorem buildDetails_of_ne_nil (lines : List (List Char)) :
    ∀ acc : List Char,
      (∀ l ∈ lines, l.head? = some '$' → 2 ≤ l.length) → acc ≠ [] →
      buildDetails lines acc =
        some (joinNewline (acc ::
          (lines.filter (fun l => decide (l.head? = some '$'))).map (fun l => l.drop 2))) := by
  induction lines with
  | nil => intro acc _ _; rfl
  | cons l rest ih =>
    intro acc h hacc
    have hrest := fun x hx => h x (List.mem_cons_of_mem l hx)
    by_cases hl : l.head? = some '$'
    · have hlen : ¬ l.length < 2 := by
        have := h l (List.mem_cons_self l rest) hl
        omega
      have hstep : detailsStep acc l = some (acc ++ '\n' :: l.drop 2) := by
        unfold detailsStep
        rw [if_pos hl, if_neg hlen, if_neg hacc]
        simp
      have h1 : buildDetails (l :: rest) acc = buildDetails rest (acc ++ '\n' :: l.drop 2) := by
        rw [buildDetails, hstep]
      rw [h1, ih _ hrest (by simp), List.filter_cons_of_pos (by simpa using hl), List.map_cons,
        joinNewline_append_head]
      rfl
    · have hstep : detailsStep acc l = some acc := by
        unfold detailsStep
        rw [if_neg hl]
      have h1 : buildDetails (l :: rest) acc = buildDetails rest acc := by
        rw [buildDetails, hstep]
      rw [h1, ih acc hrest hacc, List.filter_cons_of_neg (by simpa using hl)]

theorem buildDetails_nil_acc (lines : List (List Char))
    (h : ∀ l ∈ lines, l.head? = some '$' → 2 ≤ l.length) :
    buildDetails lines [] = some (codeDetails lines) := by
  induction lines with
  | nil => rfl
  | cons l rest ih =>
    have hrest := fun x hx => h x (List.mem_cons_of_mem l hx)
    by_cases hl : l.head? = some '$'
    · have hlen : ¬ l.length < 2 := by
        have := h l (List.mem_cons_self l rest) hl
        omega
      have hstep : detailsStep [] l = some (l.drop 2) := by
        unfold detailsStep
        rw [if_pos hl, if_neg hlen]
        simp
      have h1 : buildDetails (l :: rest) [] = buildDetails rest (l.drop 2) := by
        rw [buildDetails, hstep]
      rw [h1]
      unfold codeDetails
      rw [List.filter_cons_of_pos (by simpa using hl), List.map_cons]
      by_cases hc : l.drop 2 = []
      · rw [hc, List.dropWhile_cons_of_pos (by simp)]
        exact ih hrest
      · rw [List.dropWhile_cons_of_neg (by simpa using hc)]
        exact buildDetails_of_ne_nil rest (l.drop 2) hrest hc
    · have hstep : detailsStep [] l = some [] := by
        unfold detailsStep
        rw [if_neg hl]
      have h1 : buildDetails (l :: rest) [] = buildDetails rest [] := by
        rw [buildDetails, hstep]
      rw [h1, ih hrest]
      unfold codeDetails
      rw [List.filter_cons_of_neg (by simpa using hl)]

/-- C4 counterexample: the spec collects lines beginning with the two-character
dollar-space prefix, but the code tests only the one-character prefix; on stdout
lines dollar-space-a and dollar-x with exit status 0, the code's deploy returns the
details a-newline (the dollar-x line contributes an empty fragment), whereas the
spec's details would be just a. -/
theorem deploy_prefix_counterexample :
    deploy ["$ a".toList, "$x".toList] true = some (Except.ok ("a\n".toList)) ∧
    specDetails ["$ a".toList, "$x".toList] = "a".toList ∧
    deploy ["$ a".toList, "$x".toList] true ≠
      some (Except.ok (specDetails ["$ a".toList, "$x".toList])) := by
  exact ⟨by decide, by decide, by decide⟩

/-- C4 (amended): for stdout lines none of which is a lone dollar character (on such
a line the slice of the first two characters panics), `deploy` returns `Ok(details)`
iff the exit status is 0 (`Err` on any failure status), where `details` is built
from the lines whose FIRST character is a dollar sign — each stripped of its first
two characters — joined by single newlines, with leading empty fragments collapsed
(the code inserts a newline only when the buffer is already nonempty). -/
theorem deploy_spec (stdoutLines : List (List Char)) (exitSuccess : Bool)
    (h : ∀ l ∈ stdoutLines, l.head? = some '$' → 2 ≤ l.length) :
    deploy stdoutLines exitSuccess =
      some (if exitSuccess then Except.ok (codeDetails stdoutLines) else Except.error ()) := by
  unfold deploy
  rw [buildDetails_nil_acc stdoutLines h]
  rfl

/-- Witness for `deploy_spec`: on lines dollar-space-a, dollar-x and b with exit
status 0, deploy returns ok with details a-newline. -/
theorem deploy_spec_witness :
    deploy ["$ a".toList, "$x".toList, "b".toList] true =
      some (Except.ok ("a\n".toList)) := by
  have h := deploy_spec ["$ a".toList, "$x".toList, "b".toList] true (by decide)
  exact h

theorem digitsThenUnit_getLastD (l : List Char) (h : digitsThenUnit l = true) :
    ∀ dflt : Char, l.getLastD dflt = 's' ∨ l.getLastD dflt = 'm' ∨
      l.getLastD dflt = 'h' ∨ l.getLastD dflt = 'd' := by
  induction l with
  | nil => exact absurd h (by simp [digitsThenUnit])
  | cons c rest ih =>
    intro dflt
    cases rest with
    | nil =>
        unfold digitsThenUnit at h
        rw [decide_eq_true_eq] at h
        simpa [List.getLastD] using h
    | cons d ds =>
        unfold digitsThenUnit at h
        rw [Bool.and_eq_true] at h
        rw [List.getLastD_cons]
        exact ih h.2 c

/-- C8 counterexample: the eleven-character string 4294967296s matches the duration
regex, yet the deserializer panics (u32 parse `unwrap` overflows) instead of
returning a number of seconds. -/
theorem deserialize_duration_overflow_counterexample :
    matchesDurationRegex ("4294967296s".toList) = true ∧
      deserialize_duration ("4294967296s".toList) = none := by
  exact ⟨by decide, by decide⟩

/-- C8 (amended): every ASCII string matching the regex whose numeric prefix times
the unit factor (s=1, m=60, h=3600, d=86400; the factor is read off the last
character) stays below 2^32 deserializes to exactly that product in seconds, and
every ASCII string not matching the regex is rejected with a serde error. (The
restriction is forced by `deserialize_duration_overflow_counterexample`: above
u32::MAX the parse unwrap panics instead of returning.) -/
theorem deserialize_duration_spec (cs : List Char) :
    (matchesDurationRegex cs = true →
      ∃ mult, unitMultiplier (cs.getLastD ' ') = some mult ∧ 1 ≤ mult ∧
        (natOfDigits cs.dropLast * mult < 2 ^ 32 →
          deserialize_duration cs = some (Except.ok (natOfDigits cs.dropLast * mult)))) ∧
    (matchesDurationRegex cs = false →
      deserialize_duration cs = some (Except.error "did not match duration regex")) := by
  constructor
  · intro hm
    cases cs with
    | nil => exact absurd hm (by simp [matchesDurationRegex])
    | cons c rest =>
        have hm' := hm
        unfold matchesDurationRegex at hm'
        rw [Bool.and_eq_true] at hm'
        have hu := digitsThenUnit_getLastD rest hm'.2 c
        have hlast : (c :: rest).getLastD ' ' = rest.getLastD c := List.getLastD_cons ' ' c rest
        have hmult : ∃ mult, unitMultiplier ((c :: rest).getLastD ' ') = some mult ∧ 1 ≤ mult := by
          rw [hlast]
          rcases hu with h1 | h1 | h1 | h1 <;> rw [h1] <;> exact ⟨_, rfl, by norm_num⟩
        obtain ⟨mult, hmu, hge⟩ := hmult
        refine ⟨mult, hmu, hge, fun hlt => ?_⟩
        have hv : natOfDigits (c :: rest).dropLast < 2 ^ 32 :=
          lt_of_le_of_lt (Nat.le_mul_of_pos_right _ (by omega)) hlt
        unfold deserialize_duration
        rw [if_pos hm]
        simp only [hmu]
        rw [if_pos hv, Nat.mod_eq_of_lt hlt]
  · intro hm
    unfold deserialize_duration
    rw [if_neg (by simp [hm])]

/-- Witness for `deserialize_duration_spec`: the string 90m deserializes to 5400
seconds. -/
theorem deserialize_duration_spec_witness :
    deserialize_duration ("90m".toList) = some (Except.ok 5400) := by
  obtain ⟨mult, hmu, hge, himp⟩ := (deserialize_duration_spec ("90m".toList)).1 (by decide)
  have h2 : some 60 = some mult := by
    rw [← hmu]
    decide
  obtain rfl := (Option.some.inj h2).symm
  exact himp (by decide)

end Instancer
